import Mathlib

/-!
Verification of the NAMASTE → ICD-11 mapping repository (src/main.py, src/sample.py).

The Python sources are shallowly embedded below:
* `similarity` embeds `difflib.SequenceMatcher(None, a.lower(), b.lower()).ratio()`
  (src/main.py line 83-84, src/sample.py line 111-112), including the library's
  autojunk heuristic (elements of `b` occurring in more than 1% of `b` are dropped
  from the index when `len(b) >= 200`) and the block-extension loops.  Scores are
  rationals: Python computes `2.0 * M / T` in floating point; the embedding keeps
  the exact value `2 * M / T : ℚ`.
* `extract_keywords` is embedded twice, in namespaces `Main` (src/main.py 46-78)
  and `Sample` (src/sample.py 88-109); the two copies differ in their medical
  vocabulary and compound-term tables exactly as the sources do.
* The per-code candidate table of the aggregators is an insertion-ordered
  association list, matching the semantics of a Python `dict` (assignment to an
  existing key keeps its position; fresh keys append).
* `Sample.searchAggregate` embeds the aggregation in the POST /search handler
  (src/sample.py 773-832); `Main.build_mapping_specific` embeds
  src/main.py 89-198.  The remote ICD-11 search API (`search_icd`) is external
  to the repository and is modelled as an oracle `String → List RawCandidate`
  passed to the aggregators; everything done with its answers is embedded.
-/

/-! ## Basic string machinery -/

/-- Substring containment on character lists, the semantics of Python's
`needle in hay` for strings: some contiguous slice of `hay` equals `needle`. -/
def listHasSub (needle : List Char) : List Char → Bool
  | [] => needle.isEmpty
  | c :: rest => needle.isPrefixOf (c :: rest) || listHasSub needle rest

/-- `strHasSub hay needle` is Python's `needle in hay` (no case folding here;
call sites lowercase first exactly where the source does). -/
def strHasSub (hay needle : String) : Bool :=
  listHasSub needle.data hay.data

/-- Python `str.lower()`.  `Char.toLower` agrees with Python's lowercasing on
the ASCII data this repository manipulates (its only non-ASCII character,
`ā`, is already lower case and fixed by both). -/
def lowerStr (s : String) : String :=
  String.mk (s.data.map Char.toLower)

/-- Lowercased character sequence of a string, the sequence
`SequenceMatcher` works on after the sources call `.lower()`. -/
def lowerChars (s : String) : List Char :=
  s.data.map Char.toLower

/-! ## difflib.SequenceMatcher (isjunk = None, autojunk = True)

`similarity(a, b)` in both sources is
`SequenceMatcher(None, a.lower(), b.lower()).ratio()`.  The embedding follows
CPython's difflib: `b2j` indexes the positions of each element of `b`, dropping
"popular" elements when `len(b) >= 200` (autojunk); `find_longest_match` runs
the chain-extension dynamic program and then widens the best block; `ratio`
sums the sizes of all matching blocks.  With `isjunk = None` the junk set
`bjunk` is empty, so the junk-extension loops never fire (they are kept
verbatim below).  -/

/-- The junk set of the matcher.  `isjunk` is `None` in both sources, so no
element is junk. -/
def bjunk (_b : List Char) : List Char := []

/-- Element access `x[i]` on the character sequences (indices are in range
wherever difflib reads them; the default is immaterial). -/
def getC (l : List Char) (i : Nat) : Char :=
  l.getD i ' '

/-- autojunk: an element of `b` is "popular" when `len(b) >= 200` and it occurs
more than `len(b) // 100 + 1` times (difflib `__chain_b`). -/
def isPopular (b : List Char) (c : Char) : Bool :=
  b.length ≥ 200 && b.count c > b.length / 100 + 1

/-- Ascending list of positions of `c` in `b`. -/
def positionsOf (b : List Char) (c : Char) : List Nat :=
  (List.range b.length).filter (fun j => getC b j = c)

/-- `b2j.get(c, [])`: position index of `b`, with popular elements removed. -/
def b2jGet (b : List Char) (c : Char) : List Nat :=
  if isPopular b c then [] else positionsOf b c

/-- `j2len.get(j, 0)` on the association-list representation of the dict. -/
def lookJ2 (m : List (Nat × Nat)) (j : Nat) : Nat :=
  (m.lookup j).getD 0

/-- The running best block `(besti, bestj, bestsize)` of `find_longest_match`. -/
structure FlmBest where
  i : Nat
  j : Nat
  size : Nat
deriving Repr, DecidableEq

/-- Inner loop of `find_longest_match` over `b2j.get(a[i], [])`:
`if j < blo: continue`, `if j >= bhi: break`, otherwise chain
`k = j2len.get(j-1, 0) + 1` (the `j = 0` case reads Python's `j2len.get(-1, 0) = 0`)
into `newj2len` and update the best block on strict improvement. -/
def flmInner (i blo bhi : Nat) (j2prev : List (Nat × Nat)) :
    List Nat → List (Nat × Nat) → FlmBest → List (Nat × Nat) × FlmBest
  | [], acc, best => (acc, best)
  | j :: rest, acc, best =>
    if j < blo then flmInner i blo bhi j2prev rest acc best
    else if bhi ≤ j then (acc, best)
    else
      let k := (if j = 0 then 0 else lookJ2 j2prev (j - 1)) + 1
      let best' := if best.size < k then ⟨i + 1 - k, j + 1 - k, k⟩ else best
      flmInner i blo bhi j2prev rest (acc ++ [(j, k)]) best'

/-- Outer loop of `find_longest_match` over `i in range(alo, ahi)`, threading
the `j2len` dict (rebuilt as `newj2len` at each `i`) and the best block. -/
def flmOuter (a b : List Char) (blo bhi : Nat) :
    List Nat → List (Nat × Nat) → FlmBest → FlmBest
  | [], _, best => best
  | i :: rest, j2prev, best =>
    let st := flmInner i blo bhi j2prev (b2jGet b (getC a i)) [] best
    flmOuter a b blo bhi rest st.1 st.2

/-- First extension loop: grow the best block leftwards through equal,
non-junk elements (structural recursion on `besti`; when it reaches 0 the
loop guard `alo < besti` fails anyway). -/
def extLeftNJ (a b : List Char) (alo blo : Nat) : Nat → Nat → Nat → FlmBest
  | 0, j, size => ⟨0, j, size⟩
  | i + 1, j, size =>
    if alo < i + 1 ∧ blo < j ∧
        (bjunk b).contains (getC b (j - 1)) = false ∧
        getC a i = getC b (j - 1) then
      extLeftNJ a b alo blo i (j - 1) (size + 1)
    else ⟨i + 1, j, size⟩

/-- Second extension loop: grow the best block rightwards through equal,
non-junk elements.  The first `Nat` is fuel: each iteration needs
`i + size < ahi` and grows `size`, so with the initial fuel `ahi` (supplied by
`flm`) the fuel can only run out when the guard is already false, and the
exhaustion case returns exactly what the loop would. -/
def extRightNJ (a b : List Char) (ahi bhi : Nat) : Nat → Nat → Nat → Nat → FlmBest
  | 0, i, j, size => ⟨i, j, size⟩
  | fuel + 1, i, j, size =>
    if i + size < ahi ∧ j + size < bhi ∧
        (bjunk b).contains (getC b (j + size)) = false ∧
        getC a (i + size) = getC b (j + size) then
      extRightNJ a b ahi bhi fuel i j (size + 1)
    else ⟨i, j, size⟩

/-- Third extension loop: grow leftwards through equal junk elements
(never fires: `bjunk` is empty since `isjunk` is `None`). -/
def extLeftJ (a b : List Char) (alo blo : Nat) : Nat → Nat → Nat → FlmBest
  | 0, j, size => ⟨0, j, size⟩
  | i + 1, j, size =>
    if alo < i + 1 ∧ blo < j ∧
        (bjunk b).contains (getC b (j - 1)) = true ∧
        getC a i = getC b (j - 1) then
      extLeftJ a b alo blo i (j - 1) (size + 1)
    else ⟨i + 1, j, size⟩

/-- Fourth extension loop: grow rightwards through equal junk elements
(never fires: `bjunk` is empty since `isjunk` is `None`). -/
def extRightJ (a b : List Char) (ahi bhi : Nat) : Nat → Nat → Nat → Nat → FlmBest
  | 0, i, j, size => ⟨i, j, size⟩
  | fuel + 1, i, j, size =>
    if i + size < ahi ∧ j + size < bhi ∧
        (bjunk b).contains (getC b (j + size)) = true ∧
        getC a (i + size) = getC b (j + size) then
      extRightJ a b ahi bhi fuel i j (size + 1)
    else ⟨i, j, size⟩

/-- The four extension loops applied to a best block, with the fuel of the
rightward loops instantiated at `ahi` as discussed above. -/
def extLeftNJs (a b : List Char) (alo blo : Nat) (st : FlmBest) : FlmBest :=
  extLeftNJ a b alo blo st.i st.j st.size

def extRightNJs (a b : List Char) (ahi bhi : Nat) (st : FlmBest) : FlmBest :=
  extRightNJ a b ahi bhi ahi st.i st.j st.size

def extLeftJs (a b : List Char) (alo blo : Nat) (st : FlmBest) : FlmBest :=
  extLeftJ a b alo blo st.i st.j st.size

def extRightJs (a b : List Char) (ahi bhi : Nat) (st : FlmBest) : FlmBest :=
  extRightJ a b ahi bhi ahi st.i st.j st.size

/-- `find_longest_match(alo, ahi, blo, bhi)`. -/
def flm (a b : List Char) (alo ahi blo bhi : Nat) : FlmBest :=
  extRightJs a b ahi bhi (extLeftJs a b alo blo
    (extRightNJs a b ahi bhi (extLeftNJs a b alo blo
      (flmOuter a b blo bhi ((List.range (ahi - alo)).map (fun t => alo + t))
        [] ⟨alo, blo, 0⟩))))

/-- Fuelled recursion behind `matchesTotal`: sum of the sizes of the matching
blocks in the rectangle.  difflib drives the same recursion with an explicit
queue; the queue order permutes the block list but not this sum.  The guards
on the recursive calls always hold for the block `flm` returns, and each call
strictly shrinks `(ahi - alo) + (bhi - blo)`, so with the initial fuel of
`matchesTotal` the exhaustion case is unreachable. -/
def matchesTotalF (a b : List Char) : Nat → Nat → Nat → Nat → Nat → Nat
  | 0, _, _, _, _ => 0
  | fuel + 1, alo, ahi, blo, bhi =>
    let m := flm a b alo ahi blo bhi
    if m.size = 0 then 0
    else
      m.size
      + (if alo < m.i ∧ blo < m.j ∧ m.i + m.size ≤ ahi ∧ m.j + m.size ≤ bhi then
          matchesTotalF a b fuel alo m.i blo m.j else 0)
      + (if m.i + m.size < ahi ∧ m.j + m.size < bhi ∧ alo ≤ m.i ∧ blo ≤ m.j then
          matchesTotalF a b fuel (m.i + m.size) ahi (m.j + m.size) bhi else 0)

/-- Total size of all matching blocks found between `a[alo:ahi]` and
`b[blo:bhi]`, i.e. the sum `get_matching_blocks` is reduced to by `ratio`. -/
def matchesTotal (a b : List Char) (alo ahi blo bhi : Nat) : Nat :=
  matchesTotalF a b ((ahi - alo) + (bhi - blo) + 1) alo ahi blo bhi

/-- `SequenceMatcher.ratio()`: `2 * M / T`, and `1.0` when both sequences are
empty (difflib `_calculate_ratio`).  The quotient is built with `mkRat`
(definitionally equal to `2 * M / T : ℚ`, see `ratioOf_eq_div`) because
`Rat.div` is `@[irreducible]` and would block kernel evaluation. -/
def ratioOf (a b : List Char) : ℚ :=
  if a.length + b.length = 0 then 1
  else mkRat (2 * (matchesTotal a b 0 a.length 0 b.length)) (a.length + b.length)

/-- `q * (n / d)` computed on the raw numerator and denominator, so that the
kernel can evaluate scores (`Rat.mul` is `@[irreducible]`); `scale_eq_mul`
recovers the ordinary product. -/
def scale (q : ℚ) (n d : Nat) : ℚ :=
  mkRat (q.num * n) (q.den * d)

/-- `similarity(a, b)` of both sources:
`SequenceMatcher(None, a.lower(), b.lower()).ratio()`. -/
def similarity (a b : String) : ℚ :=
  ratioOf (lowerChars a) (lowerChars b)

/-! ## Keyword extraction

Both sources define `extract_keywords(definition)`: lowercase, replace every
character outside `\w` and `\s` by a space, split on whitespace, keep tokens
longer than 3 characters that are not stop words, keep those containing a
domain-vocabulary term as a substring, then append compound terms triggered by
substring co-occurrence checks on the lowercased definition, and truncate to
the first 8 entries.  `\w` is modelled as ASCII alphanumerics, `_`, and any
non-ASCII character (all non-ASCII characters in this repository's data are
letters, which Python's `\w` matches). -/

/-- Model of Python regex `\w` on this repository's data. -/
def isWordChar (c : Char) : Bool :=
  c.isAlphanum || c = '_' || 128 ≤ c.toNat

/-- Model of Python regex `\s` (ASCII whitespace). -/
def isSpaceChar (c : Char) : Bool :=
  c = ' ' || c = '\t' || c = '\n' || c = '\r' || c.toNat = 11 || c.toNat = 12

/-- `re.sub(r'[^\w\s]', ' ', definition.lower())`. -/
def cleanDef (s : String) : String :=
  String.mk ((lowerStr s).data.map (fun c => if isWordChar c || isSpaceChar c then c else ' '))

/-- Accumulator pass behind `splitWords`: cut the character stream at
whitespace, dropping empty pieces. -/
def splitWordsChars : List Char → List Char → List (List Char)
  | [], acc => if acc = [] then [] else [acc]
  | c :: rest, acc =>
    if isSpaceChar c then (if acc = [] then [] else [acc]) ++ splitWordsChars rest []
    else splitWordsChars rest (acc ++ [c])

/-- Python `str.split()` with no separator: split on whitespace runs,
discarding empty pieces. -/
def splitWords (s : String) : List String :=
  (splitWordsChars s.data []).map String.mk

/-- The stop-word set, identical in both sources. -/
def stopWords : List String :=
  ["is", "are", "the", "and", "or", "of", "in", "to", "by", "at", "such", "as",
   "this", "may", "be", "it", "with", "a", "an", "various", "parts", "body",
   "functions", "consequent", "explained", "marked", "increase"]

/-- `[word for word in words if len(word) > 3 and word not in stop_words]`. -/
def filteredTokens (definition : String) : List String :=
  (splitWords (cleanDef definition)).filter
    (fun w => 3 < w.length && !(stopWords.contains w))

namespace Main

/-- The medical-vocabulary list of src/main.py line 61. -/
def medicalTerms : List String :=
  ["roughness", "hoarseness", "voice", "emaciation", "blackish", "discoloration",
   "twitching", "warmth", "insomnia", "strength", "stools", "physiological",
   "pathological"]

/-- The `medical_keywords` accumulation loop (src/main.py 59-62): tokens
containing a vocabulary term as a substring, in scan order. -/
def medical_keywords (definition : String) : List String :=
  (filteredTokens definition).filter
    (fun word => medicalTerms.any (fun t => strHasSub word t))

/-- The `compound_terms` block (src/main.py 65-73): each co-occurrence check
on `definition.lower()` contributes one phrase, in source order. -/
def compound_terms (definition : String) : List String :=
  let low := lowerStr definition
  (if strHasSub low "hoarseness" && strHasSub low "voice" then ["hoarse voice"] else [])
  ++ (if strHasSub low "hard" && strHasSub low "stools" then ["hard stools"] else [])
  ++ (if strHasSub low "physical" && strHasSub low "strength" then ["weakness"] else [])
  ++ (if strHasSub low "blackish" && strHasSub low "discoloration" then ["skin discoloration"] else [])

/-- `extract_keywords` of src/main.py lines 46-78. -/
def extract_keywords (definition : String) : List String :=
  (medical_keywords definition ++ compound_terms definition).take 8

end Main

namespace Sample

/-- The medical-vocabulary list of src/sample.py line 97. -/
def medicalTerms : List String :=
  ["movement", "abdomen", "fullness", "aversion", "cold", "impaired",
   "accumulation", "roughness", "hoarseness", "voice", "emaciation", "blackish",
   "discoloration", "twitching", "warmth", "insomnia", "strength", "stools"]

/-- The `medical_keywords` accumulation loop (src/sample.py 95-98). -/
def medical_keywords (definition : String) : List String :=
  (filteredTokens definition).filter
    (fun word => medicalTerms.any (fun t => strHasSub word t))

/-- The `compound_terms` block (src/sample.py 100-106): three co-occurrence
checks (src/sample.py has no "skin discoloration" rule). -/
def compound_terms (definition : String) : List String :=
  let low := lowerStr definition
  (if strHasSub low "hoarseness" && strHasSub low "voice" then ["hoarse voice"] else [])
  ++ (if strHasSub low "hard" && strHasSub low "stools" then ["hard stools"] else [])
  ++ (if strHasSub low "physical" && strHasSub low "strength" then ["weakness"] else [])

/-- `extract_keywords` of src/sample.py lines 88-109. -/
def extract_keywords (definition : String) : List String :=
  (medical_keywords definition ++ compound_terms definition).take 8

end Sample

/-! ## The static NAMASTE lookup table and the POST /search entry lookup -/

/-- One value of the `NAMASTE_DATA` dict (src/sample.py lines 44-55). -/
structure NEntry where
  code : String
  term : String
  definition : String
deriving Repr, DecidableEq

/-- The definition text shared by src/sample.py (entry "SR12 (AAA-2)") and
src/main.py (`nam_def`, line 93); the two literals are byte-identical. -/
def sr12Definition : String :=
  "It is characterized by roughness or hoarseness of voice, emaciation, blackish discoloration of body, twitching in various parts of body, desire for warmth, insomnia, reduced physical strength, hard stools. This may be explained by marked increase of vatadosha functions and consequent physiological and pathological ramifications."

/-- Definition text of entry "6" (src/sample.py line 48). -/
def entry6Definition : String :=
  "It is characterized by impaired movements of vāta, fullness of abdomen and aversion to factors causing of increase of vāta such as cold. This may be explained by accumulation of vatadosha at the designated site to a moderate level resulting in accumulation."

/-- `NAMASTE_DATA` in insertion order (Python dicts preserve insertion order). -/
def NAMASTE_DATA : List (String × NEntry) :=
  [("6", ⟨"6", "vAtasa~jcayaH", entry6Definition⟩),
   ("SR12 (AAA-2)", ⟨"SR12 (AAA-2)", "vAtavRuddhiH", sr12Definition⟩)]

/-- Python `str.strip()`: remove leading and trailing whitespace.  (This
stands in for `String.trim`, whose position-based implementation the kernel
cannot evaluate.) -/
def pyStrip (s : String) : String :=
  String.mk (((s.data.dropWhile isSpaceChar).reverse.dropWhile isSpaceChar).reverse)

/-- The entry-lookup loop of the POST /search handler (src/sample.py 762-768):
first entry, in insertion order, whose key or term contains the query
case-insensitively, or whose key equals the query. -/
def findEntry (query : String) : Option NEntry :=
  (NAMASTE_DATA.find? (fun p =>
      strHasSub (lowerStr p.1) (lowerStr query)
      || strHasSub (lowerStr p.2.term) (lowerStr query)
      || query == p.1)).map (fun p => p.2)

/-- The handler strips the incoming query (src/sample.py line 759) and
answers 404 exactly when the lookup fails (line 770-771), i.e. when this
returns `none`. -/
def handleSearch (rawQuery : String) : Option NEntry :=
  findEntry (pyStrip rawQuery)

/-! ## The per-code candidate tables and the two aggregators

`search_icd` performs the remote API call and is modelled as an oracle
`String → List RawCandidate` mapping a query string to the
`destinationEntities` records the API returns for it. -/

/-- One record of `destinationEntities`: the two fields the sources read. -/
structure RawCandidate where
  title : String
  theCode : String
deriving Repr, DecidableEq

/-- A value of the candidate dict: `(title, score, source)` exactly as the
sources store it. -/
abbrev Entry := String × ℚ × String

/-- The `all_candidates` dict: insertion-ordered association list keyed by
target code. -/
abbrev Table := List (String × Entry)

/-- `all_candidates[code]` lookup (`code in all_candidates` is `≠ none`). -/
def lookupT (t : Table) (code : String) : Option Entry :=
  (t.find? (fun p => p.1 == code)).map (fun p => p.2)

/-- `all_candidates[code] = entry`: Python dict assignment — an existing key
keeps its position, a fresh key is appended. -/
def dinsert (t : Table) (code : String) (e : Entry) : Table :=
  if t.any (fun p => p.1 == code) then
    t.map (fun p => if p.1 == code then (code, e) else p)
  else t ++ [(code, e)]

namespace Sample

/-- Body of the term-phase loop (src/sample.py 784-789): an unconditional
dict assignment whenever title and code are non-empty. -/
def phase1Step (term : String) (t : Table) (c : RawCandidate) : Table :=
  if c.title ≠ "" ∧ c.theCode ≠ "" then
    dinsert t c.theCode (c.title, similarity term c.title, "NAMASTE_term")
  else t

/-- Body of the keyword-phase loop (src/sample.py 794-803):
`score = max(score_vs_term, score_vs_keyword * 0.8)`, assigned only when the
code is absent or the new score is strictly greater. -/
def keywordStep (term keyword : String) (t : Table) (c : RawCandidate) : Table :=
  if c.title ≠ "" ∧ c.theCode ≠ "" then
    let score_vs_term := similarity term c.title
    let score_vs_keyword := similarity keyword c.title
    let score := max score_vs_term (scale score_vs_keyword 4 5)
    match lookupT t c.theCode with
    | none => dinsert t c.theCode (c.title, score, "keyword: " ++ keyword)
    | some e =>
      if e.2.1 < score then dinsert t c.theCode (c.title, score, "keyword: " ++ keyword)
      else t
  else t

/-- The aggregation performed by the POST /search handler for a located entry
(src/sample.py 776-803): keyword extraction, the term query, then one query
per keyword.  There is no symptom-phrase phase in src/sample.py.  Returns the
extracted keywords and the final candidate table. -/
def searchAggregate (term defn : String) (oracle : String → List RawCandidate) :
    List String × Table :=
  let keywords := Sample.extract_keywords defn
  let t1 := (oracle term).foldl (phase1Step term) []
  let t2 := keywords.foldl (fun t kw => (oracle kw).foldl (keywordStep term kw) t) t1
  (keywords, t2)

/-- The best-match scan (src/sample.py 806-821): running maximum with strict
improvement, starting from `best_match = None`, `best_score = 0.0`.  (The
handler then also sorts the candidates by rounded score for presentation,
which does not affect the best match.) -/
def selectBest (t : Table) : Option (String × Entry) × ℚ :=
  t.foldl (fun acc p => if acc.2 < p.2.2.1 then (some p, p.2.2.1) else acc) (none, 0)

end Sample

namespace Main

/-- `nam_code` of src/main.py line 91. -/
def nam_code : String := "SR12 (AAA-2)"

/-- `nam_term` of src/main.py line 92. -/
def nam_term : String := "vAtavRuddhiH"

/-- `nam_def` of src/main.py line 93 (identical to `sr12Definition`). -/
def nam_def : String := sr12Definition

/-- `symptom_phrases` of src/main.py lines 149-156. -/
def symptom_phrases : List String :=
  ["voice hoarseness", "muscle twitching", "sleep disorders", "constipation",
   "skin discoloration", "muscle weakness"]

/-- The mutable state of `build_mapping_specific`: the candidate dict, the
best overall match `(code, title, source)`, and the best overall score. -/
structure AggSt where
  table : Table
  best : Option (String × String × String)
  bestScore : ℚ
deriving Repr, DecidableEq

/-- Body of the priority-1 loop (src/main.py 109-118): unconditional dict
assignment (no title/code check, no score comparison), then best tracking. -/
def step1 (st : AggSt) (c : RawCandidate) : AggSt :=
  let score := similarity nam_term c.title
  let table := dinsert st.table c.theCode (c.title, score, "NAMASTE_term")
  if st.bestScore < score then ⟨table, some (c.theCode, c.title, "NAMASTE_term"), score⟩
  else ⟨table, st.best, st.bestScore⟩

/-- Body of the priority-2 loop (src/main.py 130-146). -/
def step2 (keyword : String) (st : AggSt) (c : RawCandidate) : AggSt :=
  let score_vs_term := similarity nam_term c.title
  let score_vs_keyword := similarity keyword c.title
  let score := max score_vs_term (scale score_vs_keyword 4 5)
  let table :=
    match lookupT st.table c.theCode with
    | none => dinsert st.table c.theCode (c.title, score, "keyword: " ++ keyword)
    | some e =>
      if e.2.1 < score then dinsert st.table c.theCode (c.title, score, "keyword: " ++ keyword)
      else st.table
  if st.bestScore < score then ⟨table, some (c.theCode, c.title, "keyword: " ++ keyword), score⟩
  else ⟨table, st.best, st.bestScore⟩

/-- Body of the priority-3 loop (src/main.py 164-176):
`score = similarity(phrase, title) * 0.9`. -/
def step3 (phrase : String) (st : AggSt) (c : RawCandidate) : AggSt :=
  let score := scale (similarity phrase c.title) 9 10
  let table :=
    match lookupT st.table c.theCode with
    | none => dinsert st.table c.theCode (c.title, score, "symptom: " ++ phrase)
    | some e =>
      if e.2.1 < score then dinsert st.table c.theCode (c.title, score, "symptom: " ++ phrase)
      else st.table
  if st.bestScore < score then ⟨table, some (c.theCode, c.title, "symptom: " ++ phrase), score⟩
  else ⟨table, st.best, st.bestScore⟩

/-- `build_mapping_specific` (src/main.py 89-186) up to the point where the
result row is assembled: all three query phases in priority order.  The
`if candidates:` guard around the priority-1 loop is a no-op (an empty list
loops zero times); the priority-2 phase runs only when the definition strips
to a non-empty string, as in the source. -/
def build_mapping_specific (oracle : String → List RawCandidate) : AggSt :=
  let st1 := (oracle nam_term).foldl step1 ⟨[], none, 0⟩
  let st2 :=
    if pyStrip nam_def ≠ "" then
      (Main.extract_keywords nam_def).foldl
        (fun st kw => (oracle kw).foldl (step2 kw) st) st1
    else st1
  symptom_phrases.foldl (fun st ph => (oracle ph).foldl (step3 ph) st) st2

end Main

/-! ## Concrete oracles used by the counterexamples -/

/-- Oracle for C1: the term query returns two candidates with the same code,
the first scoring 1.0 and the second 0.0; every other query returns nothing. -/
def c1Oracle : String → List RawCandidate := fun q =>
  if q = "vAtavRuddhiH" then [⟨"vAtavRuddhiH", "X"⟩, ⟨"qq", "X"⟩] else []

/-- Oracle for C2: only the symptom phrase "muscle twitching" has a result. -/
def c2Oracle : String → List RawCandidate := fun q =>
  if q = "muscle twitching" then [⟨"Twitch", "8A01"⟩] else []

/-- Oracle for the amended C2: only the symptom phrase "constipation" has a
result, whose title matches it exactly up to case. -/
def c2bOracle : String → List RawCandidate := fun q =>
  if q = "constipation" then [⟨"Constipation", "ME05"⟩] else []

/-- Oracle for C6: the term query returns a single candidate whose title
shares no character with the term, so its similarity score is 0.0. -/
def c6Oracle : String → List RawCandidate := fun q =>
  if q = "vAtavRuddhiH" then [⟨"qq", "X"⟩] else []


/-! ## Basic lemmas about the string machinery -/

theorem isPrefixOf_self_eq : ∀ (l : List Char), l.isPrefixOf l = true
  | [] => rfl
  | c :: rest => by simp [List.isPrefixOf, isPrefixOf_self_eq rest]

theorem listHasSub_self (l : List Char) : listHasSub l l = true := by
  cases l with
  | nil => rfl
  | cons c rest => simp [listHasSub, isPrefixOf_self_eq]

theorem strHasSub_self (s : String) : strHasSub s s = true :=
  listHasSub_self s.data

/-! ## C7: the 404 condition of POST /search -/

set_option maxRecDepth 8000 in
/-- C7.  The handler answers 404 (here: `handleSearch` returns `none`) exactly
when no entry of the static table matches the stripped query, where an entry
matches when the lowercased query is a substring of the lowercased key or of
the lowercased term; and the query "SR12" matches the entry keyed
"SR12 (AAA-2)", so it does not 404. -/
theorem c7_search_404_iff_no_entry_matches :
    (∀ q : String,
        (handleSearch q = none ↔
          ∀ p ∈ NAMASTE_DATA,
            (strHasSub (lowerStr p.1) (lowerStr (pyStrip q))
              || strHasSub (lowerStr p.2.term) (lowerStr (pyStrip q))) = false))
    ∧ handleSearch "SR12" = some ⟨"SR12 (AAA-2)", "vAtavRuddhiH", sr12Definition⟩ := by
  refine ⟨?_, by decide⟩
  intro q
  unfold handleSearch findEntry
  rw [Option.map_eq_none', List.find?_eq_none]
  refine forall_congr' (fun p => imp_congr_right (fun _ => ?_))
  rw [Bool.not_eq_true]
  constructor
  · intro hpred
    exact (Bool.or_eq_false_iff.mp hpred).1
  · intro hab
    refine Bool.or_eq_false_iff.mpr ⟨hab, ?_⟩
    have ha := (Bool.or_eq_false_iff.mp hab).1
    cases hq : (pyStrip q == p.1) with
    | false => rfl
    | true =>
      exfalso
      have hqe : pyStrip q = p.1 := by simpa using hq
      rw [hqe, strHasSub_self] at ha
      exact Bool.noConfusion ha

set_option maxRecDepth 8000 in
/-- Witness for C7: the query "zzz" matches no entry, and the theorem then
yields the 404 answer. -/
theorem c7_search_404_witness : handleSearch "zzz" = none :=
  (c7_search_404_iff_no_entry_matches.1 "zzz").mpr (by decide)

/-! ## C10: the empty query never 404s and selects the first entry -/

set_option maxRecDepth 8000 in
/-- C10.  A query that strips to the empty string never yields a 404: the
empty string is a substring of every key, so the first entry of the table in
insertion order (code "6", term "vAtasa~jcayaH") is selected and aggregation
proceeds for it. -/
theorem c10_empty_query_selects_first_entry :
    ∀ q : String, pyStrip q = "" →
      handleSearch q = some ⟨"6", "vAtasa~jcayaH", entry6Definition⟩ := by
  intro q h
  unfold handleSearch
  rw [h]
  decide

set_option maxRecDepth 8000 in
/-- Witness for C10 at the whitespace query `"   "`. -/
theorem c10_empty_query_witness :
    handleSearch "   " = some ⟨"6", "vAtasa~jcayaH", entry6Definition⟩ :=
  c10_empty_query_selects_first_entry "   " (by decide)

/-! ## Score arithmetic and dict-lookup lemmas -/

theorem scale_eq_mul (q : ℚ) (n d : Nat) : scale q n d = q * ((n : ℚ) / (d : ℚ)) := by
  unfold scale
  rw [Rat.mkRat_eq_div]
  push_cast
  rw [← div_mul_div_comm, Rat.num_div_den]

theorem lookupT_dinsert_self (t : Table) (code : String) (e : Entry) :
    lookupT (dinsert t code e) code = some e := by
  unfold dinsert lookupT
  by_cases h : t.any (fun p => p.1 == code)
  · rw [if_pos h]
    induction t with
    | nil => simp at h
    | cons hd tl ih =>
      cases hh : (hd.1 == code) with
      | true =>
        simp only [List.map_cons, hh, if_true]
        rw [List.find?_cons_of_pos _ (by simp)]
        rfl
      | false =>
        simp only [List.map_cons, hh, if_false]
        rw [List.find?_cons_of_neg _ (by simp [hh])]
        exact ih (by simpa [List.any_cons, hh] using h)
  · rw [if_neg h]
    rw [List.find?_append]
    have hnone : t.find? (fun p => p.1 == code) = none := by
      rw [List.find?_eq_none]
      intro x hx
      simp only [List.any_eq_true, not_exists, not_and] at h
      simp [h x hx]
    rw [hnone]
    simp [List.find?]

/-! ## C9: the keyword-phase scoring formula -/

/-- C9.  In the keyword phase, a candidate for keyword `k` either leaves the
table untouched (existing entry with a score at least as large) or is stored
with score exactly `max(similarity(term, title), 0.8 * similarity(k, title))`
and provenance `"keyword: k"` — in the service aggregator
(`Sample.keywordStep`) and in the batch aggregator (`Main.step2`, where the
term is the fixed `nam_term`). -/
theorem c9_keyword_phase_scoring :
    (∀ (term keyword : String) (t : Table) (c : RawCandidate),
        Sample.keywordStep term keyword t c = t ∨
        lookupT (Sample.keywordStep term keyword t c) c.theCode =
          some (c.title,
            max (similarity term c.title) ((4/5 : ℚ) * similarity keyword c.title),
            "keyword: " ++ keyword))
    ∧ (∀ (keyword : String) (st : Main.AggSt) (c : RawCandidate),
        (Main.step2 keyword st c).table = st.table ∨
        lookupT (Main.step2 keyword st c).table c.theCode =
          some (c.title,
            max (similarity Main.nam_term c.title) ((4/5 : ℚ) * similarity keyword c.title),
            "keyword: " ++ keyword)) := by
  have hscale : ∀ q : ℚ, scale q 4 5 = (4/5 : ℚ) * q := by
    intro q
    rw [scale_eq_mul, mul_comm]
    norm_num
  constructor
  · intro term keyword t c
    unfold Sample.keywordStep
    by_cases hv : c.title ≠ "" ∧ c.theCode ≠ ""
    · rw [if_pos hv]
      cases hl : lookupT t c.theCode with
      | none =>
        right
        simp only [hl]
        rw [lookupT_dinsert_self, hscale]
      | some e =>
        simp only [hl]
        by_cases hs : e.2.1 < max (similarity term c.title)
            (scale (similarity keyword c.title) 4 5)
        · right
          rw [if_pos hs, lookupT_dinsert_self, hscale]
        · left
          rw [if_neg hs]
    · rw [if_neg hv]
      left
      rfl
  · intro keyword st c
    unfold Main.step2
    by_cases hl : ∃ e, lookupT st.table c.theCode = some e
    · obtain ⟨e, he⟩ := hl
      simp only [he]
      by_cases hs : e.2.1 < max (similarity Main.nam_term c.title)
          (scale (similarity keyword c.title) 4 5)
      · rw [if_pos hs]
        right
        by_cases hb : st.bestScore < max (similarity Main.nam_term c.title)
            (scale (similarity keyword c.title) 4 5)
        · rw [if_pos hb]
          rw [lookupT_dinsert_self, hscale]
        · rw [if_neg hb]
          rw [lookupT_dinsert_self, hscale]
      · rw [if_neg hs]
        left
        by_cases hb : st.bestScore < max (similarity Main.nam_term c.title)
            (scale (similarity keyword c.title) 4 5)
        · rw [if_pos hb]
        · rw [if_neg hb]
    · have he : lookupT st.table c.theCode = none := by
        cases h : lookupT st.table c.theCode with
        | none => rfl
        | some e => exact absurd ⟨e, h⟩ hl
      simp only [he]
      right
      by_cases hb : st.bestScore < max (similarity Main.nam_term c.title)
          (scale (similarity keyword c.title) 4 5)
      · rw [if_pos hb]
        rw [lookupT_dinsert_self, hscale]
      · rw [if_neg hb]
        rw [lookupT_dinsert_self, hscale]

/-! ## C8: bounds and filters of the keyword extractor -/

theorem isPrefixOf_subset : ∀ (nd hay : List Char), nd.isPrefixOf hay = true →
    ∀ x ∈ nd, x ∈ hay
  | [], _, _, x, hx => absurd hx (List.not_mem_nil x)
  | _ :: _, [], h, _, _ => by simp [List.isPrefixOf] at h
  | a :: as, b :: bs, h, x, hx => by
    rw [List.isPrefixOf, Bool.and_eq_true, beq_iff_eq] at h
    rcases List.mem_cons.mp hx with rfl | hxs
    · rw [h.1]; exact List.mem_cons_self b bs
    · exact List.mem_cons_of_mem b (isPrefixOf_subset as bs h.2 x hxs)

theorem listHasSub_subset : ∀ (hay nd : List Char), listHasSub nd hay = true →
    ∀ x ∈ nd, x ∈ hay
  | [], nd, h, x, hx => by
    rw [listHasSub] at h
    rw [List.isEmpty_iff.mp h] at hx
    exact absurd hx (List.not_mem_nil x)
  | c :: rest, nd, h, x, hx => by
    rw [listHasSub, Bool.or_eq_true] at h
    rcases h with h | h
    · exact isPrefixOf_subset nd (c :: rest) h x hx
    · exact List.mem_cons_of_mem c (listHasSub_subset rest nd h x hx)

theorem toLower_eq_self_of_not_word {c : Char} (h : isWordChar c = false) :
    Char.toLower c = c := by
  unfold Char.toLower
  rw [if_neg]
  intro ⟨h1, h2⟩
  have hup : c.isUpper = true := by
    unfold Char.isUpper
    rw [Bool.and_eq_true]
    constructor
    · rw [decide_eq_true_iff]
      show (65 : UInt32) ≤ c.val
      rw [UInt32.le_def, BitVec.le_def]
      exact h1
    · rw [decide_eq_true_iff]
      show c.val ≤ (90 : UInt32)
      rw [UInt32.le_def, BitVec.le_def]
      exact h2
  unfold isWordChar Char.isAlphanum Char.isAlpha at h
  simp [hup] at h

theorem isWordChar_toLower {c : Char} (h : isWordChar c = false) :
    isWordChar (Char.toLower c) = false := by
  rw [toLower_eq_self_of_not_word h]; exact h

theorem splitWordsChars_all_space :
    ∀ (l : List Char), (∀ c ∈ l, isSpaceChar c = true) →
      ∀ acc, splitWordsChars l acc = if acc = [] then [] else [acc]
  | [], _, acc => rfl
  | c :: rest, h, acc => by
    rw [splitWordsChars, if_pos (h c (List.mem_cons_self c rest))]
    rw [splitWordsChars_all_space rest (fun x hx => h x (List.mem_cons_of_mem c hx)) []]
    simp

theorem filteredTokens_of_no_word (d : String)
    (h : ∀ c ∈ d.data, isWordChar c = false) : filteredTokens d = [] := by
  unfold filteredTokens splitWords
  have hclean : ∀ c ∈ (cleanDef d).data, isSpaceChar c = true := by
    intro c hc
    unfold cleanDef lowerStr at hc
    simp only [List.mem_map] at hc
    obtain ⟨c1, hc1, hc1e⟩ := hc
    obtain ⟨c0, hc0, hc0e⟩ := hc1
    have hw : isWordChar c1 = false := hc0e ▸ isWordChar_toLower (h c0 hc0)
    by_cases hsp : isSpaceChar c1 = true
    · rw [← hc1e]
      simp [hw, hsp]
    · rw [← hc1e]
      rw [if_neg (by simp [hw, hsp])]
      decide
  rw [splitWordsChars_all_space (cleanDef d).data hclean []]
  simp

theorem strHasSub_lower_false (d : String) (nd : List Char)
    (h : ∀ c ∈ d.data, isWordChar c = false)
    (x : Char) (hx : x ∈ nd) (hxw : isWordChar x = true) :
    listHasSub nd (lowerStr d).data = false := by
  cases hs : listHasSub nd (lowerStr d).data with
  | false => rfl
  | true =>
    exfalso
    have hmem := listHasSub_subset (lowerStr d).data nd hs x hx
    unfold lowerStr at hmem
    simp only [List.mem_map] at hmem
    obtain ⟨c0, hc0, hc0e⟩ := hmem
    have : isWordChar x = false := hc0e ▸ isWordChar_toLower (h c0 hc0)
    rw [hxw] at this
    exact Bool.noConfusion this

theorem mem_if_singleton {α : Type} {c : Prop} [Decidable c] {s : α} {w : α}
    (h : w ∈ if c then [s] else ([] : List α)) : w = s := by
  split at h
  · simpa using h
  · simp at h

theorem mem_filtered_bounds (d : String) (w : String)
    (h : w ∈ filteredTokens d) : 3 < w.length ∧ stopWords.contains w = false := by
  unfold filteredTokens at h
  have h2 := (List.mem_filter.mp h).2
  rw [Bool.and_eq_true, Bool.not_eq_true'] at h2
  exact ⟨of_decide_eq_true h2.1, h2.2⟩

/-- C8.  Both keyword extractors return at most 8 strings, none of which is a
stop word or has length ≤ 3; and an empty or punctuation-only definition
(no `\w` character at all) yields the empty sequence. -/
theorem c8_extractor_bounds :
    (∀ d : String,
        (Main.extract_keywords d).length ≤ 8 ∧
        (Sample.extract_keywords d).length ≤ 8 ∧
        (∀ w ∈ Main.extract_keywords d, 3 < w.length ∧ stopWords.contains w = false) ∧
        (∀ w ∈ Sample.extract_keywords d, 3 < w.length ∧ stopWords.contains w = false))
    ∧ (∀ d : String, (∀ c ∈ d.data, isWordChar c = false) →
        Main.extract_keywords d = [] ∧ Sample.extract_keywords d = []) := by
  constructor
  · intro d
    refine ⟨List.length_take_le 8 _, List.length_take_le 8 _, ?_, ?_⟩
    · intro w hw
      have hw2 := List.mem_of_mem_take hw
      rcases List.mem_append.mp hw2 with hm | hc
      · exact mem_filtered_bounds d w (List.mem_filter.mp hm).1
      · unfold Main.compound_terms at hc
        rcases List.mem_append.mp hc with hc | hc4
        · rcases List.mem_append.mp hc with hc | hc3
          · rcases List.mem_append.mp hc with hc1 | hc2
            · rw [mem_if_singleton hc1]; exact ⟨by decide, by decide⟩
            · rw [mem_if_singleton hc2]; exact ⟨by decide, by decide⟩
          · rw [mem_if_singleton hc3]; exact ⟨by decide, by decide⟩
        · rw [mem_if_singleton hc4]; exact ⟨by decide, by decide⟩
    · intro w hw
      have hw2 := List.mem_of_mem_take hw
      rcases List.mem_append.mp hw2 with hm | hc
      · exact mem_filtered_bounds d w (List.mem_filter.mp hm).1
      · unfold Sample.compound_terms at hc
        rcases List.mem_append.mp hc with hc | hc3
        · rcases List.mem_append.mp hc with hc1 | hc2
          · rw [mem_if_singleton hc1]; exact ⟨by decide, by decide⟩
          · rw [mem_if_singleton hc2]; exact ⟨by decide, by decide⟩
        · rw [mem_if_singleton hc3]; exact ⟨by decide, by decide⟩
  · intro d hd
    have htok := filteredTokens_of_no_word d hd
    have hh : strHasSub (lowerStr d) "hoarseness" = false :=
      strHasSub_lower_false d _ hd 'h' (by decide) (by decide)
    have hha : strHasSub (lowerStr d) "hard" = false :=
      strHasSub_lower_false d _ hd 'h' (by decide) (by decide)
    have hph : strHasSub (lowerStr d) "physical" = false :=
      strHasSub_lower_false d _ hd 'p' (by decide) (by decide)
    have hbl : strHasSub (lowerStr d) "blackish" = false :=
      strHasSub_lower_false d _ hd 'b' (by decide) (by decide)
    constructor
    · simp [Main.extract_keywords, Main.medical_keywords, Main.compound_terms,
        htok, hh, hha, hph, hbl]
    · simp [Sample.extract_keywords, Sample.medical_keywords, Sample.compound_terms,
        htok, hh, hha, hph]

/-- Witness for C8: a punctuation-only definition yields no keywords. -/
theorem c8_extractor_witness :
    Main.extract_keywords "?!." = [] ∧ Sample.extract_keywords "?!." = [] :=
  c8_extractor_bounds.2 "?!." (by decide)

/-! ## C3: the "hoarse voice" compound can be truncated away -/

theorem mem_take_append :
    ∀ (xs : List String) (x : String) (ys : List String) (n : Nat),
      xs.length < n → x ∈ (xs ++ x :: ys).take n
  | [], x, ys, n, h => by
    cases n with
    | zero => exact absurd h (by simp)
    | succ m => simp [List.take_cons]
  | a :: as, x, ys, n, h => by
    cases n with
    | zero => exact absurd h (by simp)
    | succ m =>
      simp only [List.cons_append, List.take_cons]
      exact List.mem_cons_of_mem a
        (mem_take_append as x ys m (by simpa using h))

set_option maxRecDepth 8000 in
/-- Counterexample to C3: the repository's own SR12 definition contains both
"hoarseness" and "voice" (lowercased), yet neither extractor's output includes
"hoarse voice" — the 8-entry truncation drops it, because 8 or more
domain-filtered tokens precede the compound terms. -/
theorem c3_counterexample_sr12 :
    strHasSub (lowerStr sr12Definition) "hoarseness" = true ∧
    strHasSub (lowerStr sr12Definition) "voice" = true ∧
    "hoarse voice" ∉ Main.extract_keywords sr12Definition ∧
    "hoarse voice" ∉ Sample.extract_keywords sr12Definition :=
  ⟨by decide, by decide, by decide, by decide⟩

/-- C3 (amended).  If the lowercased definition contains both "hoarseness" and
"voice", the extractors append the literal compound "hoarse voice" after the
domain-filtered tokens, so it survives the 8-entry truncation exactly when
fewer than 8 domain-filtered tokens precede it. -/
theorem c3_amended_hoarse_voice :
    ∀ d : String,
      strHasSub (lowerStr d) "hoarseness" = true →
      strHasSub (lowerStr d) "voice" = true →
      ((Main.medical_keywords d).length < 8 →
        "hoarse voice" ∈ Main.extract_keywords d)
      ∧ ((Sample.medical_keywords d).length < 8 →
        "hoarse voice" ∈ Sample.extract_keywords d) := by
  intro d h1 h2
  constructor
  · intro hlen
    unfold Main.extract_keywords Main.compound_terms
    simp only [h1, h2, Bool.and_self, if_true, List.singleton_append,
      List.cons_append, List.append_assoc]
    exact mem_take_append _ _ _ _ hlen
  · intro hlen
    unfold Sample.extract_keywords Sample.compound_terms
    simp only [h1, h2, Bool.and_self, if_true, List.singleton_append,
      List.cons_append, List.append_assoc]
    exact mem_take_append _ _ _ _ hlen

/-- Witness for the amended C3: a short definition with both trigger words and
fewer than 8 domain-filtered tokens does include "hoarse voice". -/
theorem c3_amended_witness :
    "hoarse voice" ∈ Main.extract_keywords "hoarseness of voice" ∧
    "hoarse voice" ∈ Sample.extract_keywords "hoarseness of voice" :=
  ⟨(c3_amended_hoarse_voice "hoarseness of voice" (by decide) (by decide)).1 (by decide),
   (c3_amended_hoarse_voice "hoarseness of voice" (by decide) (by decide)).2 (by decide)⟩

/-! ## C1: the per-code table invariant -/

set_option maxRecDepth 8000 in
/-- Counterexample to C1: with `c1Oracle` the term query returns two
candidates with code "X", the first scoring 1.0 and the second 0.0; the
service aggregation stores the second, i.e. the phase-1 loop overwrote the
higher-scoring stored entry with a strictly lower-scoring one. -/
theorem c1_counterexample_phase1_overwrite :
    similarity "vAtavRuddhiH" "vAtavRuddhiH" = 1 ∧
    lookupT (Sample.searchAggregate "vAtavRuddhiH" sr12Definition c1Oracle).2 "X"
      = some ("qq", 0, "NAMASTE_term") :=
  ⟨by decide, by decide⟩

/-- At most one entry per code: the key list of the table has no duplicates. -/
def keysNodup (t : Table) : Prop := (t.map Prod.fst).Nodup

theorem foldl_preserve {α β : Type} (P : α → Prop) (f : α → β → α)
    (hf : ∀ a b, P a → P (f a b)) :
    ∀ (l : List β) (a : α), P a → P (l.foldl f a)
  | [], _, h => h
  | b :: l, a, h => foldl_preserve P f hf l (f a b) (hf a b h)

theorem dinsert_keysNodup (t : Table) (code : String) (e : Entry)
    (h : keysNodup t) : keysNodup (dinsert t code e) := by
  unfold dinsert
  by_cases ha : t.any (fun p => p.1 == code)
  · rw [if_pos ha]
    unfold keysNodup
    have hmap : (t.map (fun p => if p.1 == code then (code, e) else p)).map Prod.fst
        = t.map Prod.fst := by
      rw [List.map_map]
      apply List.map_congr_left
      intro p _
      simp only [Function.comp_apply]
      by_cases hp : (p.1 == code) = true
      · rw [if_pos hp]
        exact (beq_iff_eq.mp hp).symm
      · rw [if_neg hp]
    rw [hmap]
    exact h
  · rw [if_neg ha]
    unfold keysNodup
    rw [List.map_append, List.nodup_append]
    refine ⟨h, by simp, ?_⟩
    intro x hx hx2
    simp only [List.map_cons, List.map_nil, List.mem_singleton] at hx2
    subst hx2
    simp only [List.mem_map] at hx
    obtain ⟨p, hp, hpe⟩ := hx
    rw [List.any_eq_true] at ha
    exact ha ⟨p, hp, by simp [hpe]⟩

theorem sample_phase1Step_keysNodup (term : String) :
    ∀ (t : Table) (c : RawCandidate), keysNodup t →
      keysNodup (Sample.phase1Step term t c) := by
  intro t c h
  unfold Sample.phase1Step
  split
  · exact dinsert_keysNodup _ _ _ h
  · exact h

theorem sample_keywordStep_keysNodup (term keyword : String) :
    ∀ (t : Table) (c : RawCandidate), keysNodup t →
      keysNodup (Sample.keywordStep term keyword t c) := by
  intro t c h
  unfold Sample.keywordStep
  split
  · cases hl : lookupT t c.theCode with
    | none => simp only [hl]; exact dinsert_keysNodup _ _ _ h
    | some e =>
      simp only [hl]
      split
      · exact dinsert_keysNodup _ _ _ h
      · exact h
  · exact h

theorem main_step1_keysNodup :
    ∀ (st : Main.AggSt) (c : RawCandidate), keysNodup st.table →
      keysNodup (Main.step1 st c).table := by
  intro st c h
  simp only [Main.step1]
  split <;> exact dinsert_keysNodup _ _ _ h

theorem main_step2_keysNodup (keyword : String) :
    ∀ (st : Main.AggSt) (c : RawCandidate), keysNodup st.table →
      keysNodup (Main.step2 keyword st c).table := by
  intro st c h
  cases hl : lookupT st.table c.theCode with
  | none =>
    simp only [Main.step2, hl]
    split <;> exact dinsert_keysNodup _ _ _ h
  | some e =>
    simp only [Main.step2, hl]
    split <;> split <;> first
      | exact dinsert_keysNodup _ _ _ h
      | exact h

theorem main_step3_keysNodup (phrase : String) :
    ∀ (st : Main.AggSt) (c : RawCandidate), keysNodup st.table →
      keysNodup (Main.step3 phrase st c).table := by
  intro st c h
  cases hl : lookupT st.table c.theCode with
  | none =>
    simp only [Main.step3, hl]
    split <;> exact dinsert_keysNodup _ _ _ h
  | some e =>
    simp only [Main.step3, hl]
    split <;> split <;> first
      | exact dinsert_keysNodup _ _ _ h
      | exact h

/-- C1 (amended).  The table always holds at most one entry per target code;
in the keyword and symptom phases an insertion for a code already present is
a no-op unless the new score is strictly greater; but in the term phase the
dict assignment is unconditional, so a later same-code candidate replaces the
stored entry even with a lower score (see `c1_counterexample_phase1_overwrite`). -/
theorem c1_amended_table_invariant :
    (∀ (term defn : String) (oracle : String → List RawCandidate),
        keysNodup (Sample.searchAggregate term defn oracle).2)
    ∧ (∀ oracle : String → List RawCandidate,
        keysNodup (Main.build_mapping_specific oracle).table)
    ∧ (∀ (term keyword : String) (t : Table) (c : RawCandidate) (e : Entry),
        lookupT t c.theCode = some e →
        ¬ (e.2.1 < max (similarity term c.title)
            ((4/5 : ℚ) * similarity keyword c.title)) →
        Sample.keywordStep term keyword t c = t)
    ∧ (∀ (phrase : String) (st : Main.AggSt) (c : RawCandidate) (e : Entry),
        lookupT st.table c.theCode = some e →
        ¬ (e.2.1 < (9/10 : ℚ) * similarity phrase c.title) →
        (Main.step3 phrase st c).table = st.table)
    ∧ (∀ (term : String) (t : Table) (c : RawCandidate),
        c.title ≠ "" → c.theCode ≠ "" →
        Sample.phase1Step term t c =
          dinsert t c.theCode (c.title, similarity term c.title, "NAMASTE_term")) := by
  have hscale45 : ∀ q : ℚ, scale q 4 5 = (4/5 : ℚ) * q := by
    intro q; rw [scale_eq_mul, mul_comm]; norm_num
  have hscale910 : ∀ q : ℚ, scale q 9 10 = (9/10 : ℚ) * q := by
    intro q; rw [scale_eq_mul, mul_comm]; norm_num
  refine ⟨?_, ?_, ?_, ?_, ?_⟩
  · intro term defn oracle
    unfold Sample.searchAggregate
    apply foldl_preserve keysNodup _
      (fun t kw h => foldl_preserve keysNodup _
        (fun t2 c h2 => sample_keywordStep_keysNodup term kw t2 c h2) (oracle kw) t h)
    apply foldl_preserve keysNodup _
      (fun t c h => sample_phase1Step_keysNodup term t c h)
    exact List.nodup_nil
  · intro oracle
    unfold Main.build_mapping_specific
    apply foldl_preserve (fun st => keysNodup st.table) _
      (fun st ph h => foldl_preserve (fun st2 => keysNodup st2.table) _
        (fun st2 c h2 => main_step3_keysNodup ph st2 c h2) (oracle ph) st h)
    split
    · apply foldl_preserve (fun st => keysNodup st.table) _
        (fun st kw h => foldl_preserve (fun st2 => keysNodup st2.table) _
          (fun st2 c h2 => main_step2_keysNodup kw st2 c h2) (oracle kw) st h)
      apply foldl_preserve (fun st => keysNodup st.table) _
        (fun st c h => main_step1_keysNodup st c h)
      exact List.nodup_nil
    · apply foldl_preserve (fun st => keysNodup st.table) _
        (fun st c h => main_step1_keysNodup st c h)
      exact List.nodup_nil
  · intro term keyword t c e hl hs
    unfold Sample.keywordStep
    split
    · simp only [hl]
      rw [if_neg]
      rw [hscale45]
      exact hs
    · rfl
  · intro phrase st c e hl hs
    simp only [Main.step3, hl]
    have hneg : ¬ (e.2.1 < scale (similarity phrase c.title) 9 10) := by
      rw [hscale910]; exact hs
    rw [if_neg hneg]
    split <;> rfl
  · intro term t c h1 h2
    unfold Sample.phase1Step
    rw [if_pos ⟨h1, h2⟩]

/-- Witness for the amended C1: a concrete keyword-phase insertion against an
existing higher-scoring entry is a no-op. -/
theorem c1_amended_witness :
    Sample.keywordStep "a" "a" [("X", ("t", (1 : ℚ), "s"))] ⟨"b", "X"⟩
      = [("X", ("t", (1 : ℚ), "s"))] :=
  c1_amended_table_invariant.2.2.1 "a" "a" _ _ ("t", (1 : ℚ), "s") (by decide)
    (by
      have h0 : similarity "a" "b" = 0 := by decide
      rw [h0]
      simp)

/-! ## C2: the three query phases -/

set_option maxRecDepth 8000 in
/-- Counterexample to C2: an oracle that only answers the symptom phrase
"muscle twitching".  The batch aggregator stores its candidate (with the
0.9-discounted score `27/55`), but the service aggregation returns a table
without it: src/sample.py issues no symptom-phrase queries. -/
theorem c2_counterexample_service_has_no_symptom_phase :
    "muscle twitching" ∈ Main.symptom_phrases ∧
    c2Oracle "muscle twitching" = [⟨"Twitch", "8A01"⟩] ∧
    lookupT (Sample.searchAggregate "vAtavRuddhiH" sr12Definition c2Oracle).2 "8A01"
      = none ∧
    lookupT (Main.build_mapping_specific c2Oracle).table "8A01"
      = some ("Twitch", mkRat 27 55, "symptom: muscle twitching") :=
  ⟨by decide, by decide, by decide, by decide⟩

theorem foldl_congr_mem {α β : Type} :
    ∀ (l : List α) (f g : β → α → β) (b : β),
      (∀ x ∈ l, ∀ acc, f acc x = g acc x) →
      l.foldl f b = l.foldl g b
  | [], _, _, _, _ => rfl
  | x :: l, f, g, b, h => by
    rw [List.foldl_cons, List.foldl_cons, h x (List.mem_cons_self x l) b]
    exact foldl_congr_mem l f g _ (fun y hy acc => h y (List.mem_cons_of_mem x hy) acc)

/-- C2 (amended).  The batch aggregator (src/main.py) runs all three phases:
its result depends on the oracle exactly through the term, the extracted
keywords and the symptom phrases, and a symptom-phrase answer does reach its
table (third conjunct).  The service aggregator (src/sample.py) runs only the
first two phases: its result is unchanged by any modification of the oracle
outside the term and the extracted keywords, so it never issues the
symptom-phrase queries. -/
theorem c2_amended_phase_structure :
    (∀ (term defn : String) (O O' : String → List RawCandidate),
        O term = O' term →
        (∀ kw ∈ Sample.extract_keywords defn, O kw = O' kw) →
        Sample.searchAggregate term defn O = Sample.searchAggregate term defn O')
    ∧ (∀ (O O' : String → List RawCandidate),
        O Main.nam_term = O' Main.nam_term →
        (∀ kw ∈ Main.extract_keywords Main.nam_def, O kw = O' kw) →
        (∀ ph ∈ Main.symptom_phrases, O ph = O' ph) →
        Main.build_mapping_specific O = Main.build_mapping_specific O')
    ∧ lookupT (Main.build_mapping_specific c2bOracle).table "ME05"
        = some ("Constipation", mkRat 9 10, "symptom: constipation") := by
  refine ⟨?_, ?_, by decide⟩
  · intro term defn O O' hterm hkw
    simp only [Sample.searchAggregate]
    rw [hterm]
    refine congrArg (fun t => (Sample.extract_keywords defn, t)) ?_
    exact foldl_congr_mem _ _ _ _ (fun kw hkw2 acc => by rw [hkw kw hkw2])
  · intro O O' hterm hkw hsym
    simp only [Main.build_mapping_specific]
    rw [hterm]
    have hst2 : ∀ st : Main.AggSt,
        (if pyStrip Main.nam_def ≠ "" then
          (Main.extract_keywords Main.nam_def).foldl
            (fun st kw => (O kw).foldl (Main.step2 kw) st) st
         else st)
        = (if pyStrip Main.nam_def ≠ "" then
          (Main.extract_keywords Main.nam_def).foldl
            (fun st kw => (O' kw).foldl (Main.step2 kw) st) st
         else st) := by
      intro st
      split
      · exact foldl_congr_mem _ _ _ st (fun kw hkw2 acc => by rw [hkw kw hkw2])
      · rfl
    rw [hst2]
    exact foldl_congr_mem _ _ _ _ (fun ph hph acc => by rw [hsym ph hph])

set_option maxRecDepth 8000 in
/-- Witness for the amended C2: the service aggregation cannot tell the
symptom-only oracle `c2bOracle` apart from the empty oracle. -/
theorem c2_amended_witness :
    Sample.searchAggregate "vAtavRuddhiH" sr12Definition c2bOracle
      = Sample.searchAggregate "vAtavRuddhiH" sr12Definition (fun _ => []) :=
  c2_amended_phase_structure.1 "vAtavRuddhiH" sr12Definition c2bOracle (fun _ => [])
    (by decide) (by decide)

/-! ## C6: best-match selection -/

set_option maxRecDepth 8000 in
/-- Counterexample to C6: the term query returns one candidate ("qq", code
"X") sharing no character with the term, so its score is 0.0; the table is
non-empty and yet `best_match` is `None`, because the strict `score >
best_score` comparison never fires against the initial 0.0. -/
theorem c6_counterexample_zero_score_best_unset :
    (Sample.searchAggregate "vAtavRuddhiH" sr12Definition c6Oracle).2 ≠ [] ∧
    (Sample.selectBest
      (Sample.searchAggregate "vAtavRuddhiH" sr12Definition c6Oracle).2).1 = none ∧
    (Sample.selectBest
      (Sample.searchAggregate "vAtavRuddhiH" sr12Definition c6Oracle).2).2 = 0 :=
  ⟨by decide, by decide, by decide⟩

theorem selb_stays_some :
    ∀ (t : Table) (acc : Option (String × Entry) × ℚ),
      acc.1 ≠ none →
      (t.foldl (fun acc p => if acc.2 < p.2.2.1 then (some p, p.2.2.1) else acc) acc).1
        ≠ none
  | [], _, h => h
  | p :: rest, acc, h => by
    simp only [List.foldl_cons]
    by_cases hc : acc.2 < p.2.2.1
    · exact selb_stays_some rest _ (by simp [hc])
    · exact selb_stays_some rest _ (by simpa [hc] using h)

theorem selb_none_iff :
    ∀ (t : Table) (s : ℚ),
      ((t.foldl (fun acc p => if acc.2 < p.2.2.1 then (some p, p.2.2.1) else acc)
          (none, s)).1 = none ↔ ∀ p ∈ t, p.2.2.1 ≤ s)
  | [], s => by simp
  | p :: rest, s => by
    simp only [List.foldl_cons]
    by_cases hc : s < p.2.2.1
    · rw [if_pos hc]
      constructor
      · intro h
        exact absurd h (selb_stays_some rest _ (by simp))
      · intro h
        exact absurd hc (not_lt.mpr (h p (List.mem_cons_self p rest)))
    · rw [if_neg hc]
      rw [selb_none_iff rest s]
      constructor
      · intro h q hq
        rcases List.mem_cons.mp hq with rfl | hq2
        · exact not_lt.mp hc
        · exact h q hq2
      · intro h q hq
        exact h q (List.mem_cons_of_mem p hq)

theorem selb_some_spec :
    ∀ (t : Table) (acc : Option (String × Entry) × ℚ) (c : String × Entry),
      (t.foldl (fun acc p => if acc.2 < p.2.2.1 then (some p, p.2.2.1) else acc)
          acc).1 = some c →
      ((acc.1 = some c ∧
          (t.foldl (fun acc p => if acc.2 < p.2.2.1 then (some p, p.2.2.1) else acc)
            acc).2 = acc.2)
        ∨ (c ∈ t ∧
          (t.foldl (fun acc p => if acc.2 < p.2.2.1 then (some p, p.2.2.1) else acc)
            acc).2 = c.2.2.1))
      ∧ (∀ p ∈ t, p.2.2.1 ≤
          (t.foldl (fun acc p => if acc.2 < p.2.2.1 then (some p, p.2.2.1) else acc)
            acc).2)
      ∧ acc.2 ≤
          (t.foldl (fun acc p => if acc.2 < p.2.2.1 then (some p, p.2.2.1) else acc)
            acc).2
  | [], acc, c, h => ⟨Or.inl ⟨h, rfl⟩, by simp, le_refl _⟩
  | p :: rest, acc, c, h => by
    simp only [List.foldl_cons] at h ⊢
    by_cases hc : acc.2 < p.2.2.1
    · rw [if_pos hc] at h ⊢
      obtain ⟨hd, hall, hle⟩ := selb_some_spec rest (some p, p.2.2.1) c h
      refine ⟨?_, ?_, ?_⟩
      · rcases hd with ⟨h1, h2⟩ | ⟨h1, h2⟩
        · have : p = c := by simpa using h1
          subst this
          exact Or.inr ⟨List.mem_cons_self p rest, h2⟩
        · exact Or.inr ⟨List.mem_cons_of_mem p h1, h2⟩
      · intro q hq
        rcases List.mem_cons.mp hq with rfl | hq2
        · exact hle
        · exact hall q hq2
      · exact le_trans (le_of_lt hc) hle
    · rw [if_neg hc] at h ⊢
      obtain ⟨hd, hall, hle⟩ := selb_some_spec rest acc c h
      refine ⟨?_, ?_, ?_⟩
      · rcases hd with ⟨h1, h2⟩ | ⟨h1, h2⟩
        · exact Or.inl ⟨h1, h2⟩
        · exact Or.inr ⟨List.mem_cons_of_mem p h1, h2⟩
      · intro q hq
        rcases List.mem_cons.mp hq with rfl | hq2
        · exact le_trans (not_lt.mp hc) hle
        · exact hall q hq2
      · exact hle

/-- C6 (amended).  `best_match` is the highest-scoring candidate when one
scores strictly above 0.0: if `best` is set it lies in the table, dominates
every entry's score, and the reported best score is its score.  But `best` is
unset exactly when every entry of the table scores ≤ 0.0 — in particular a
non-empty table of zero-score candidates leaves `best` unset (see
`c6_counterexample_zero_score_best_unset`) — and an empty table yields an
unset best with reported score 0.0, not an error. -/
theorem c6_amended_best_selection :
    ∀ t : Table,
      ((Sample.selectBest t).1 = none ↔ ∀ p ∈ t, p.2.2.1 ≤ 0)
      ∧ (∀ c, (Sample.selectBest t).1 = some c →
          c ∈ t ∧ (∀ p ∈ t, p.2.2.1 ≤ c.2.2.1) ∧ (Sample.selectBest t).2 = c.2.2.1)
      ∧ (t = [] → (Sample.selectBest t).1 = none ∧ (Sample.selectBest t).2 = 0) := by
  intro t
  refine ⟨selb_none_iff t 0, ?_, ?_⟩
  · intro c h
    obtain ⟨hd, hall, _⟩ := selb_some_spec t (none, 0) c h
    rcases hd with ⟨h1, _⟩ | ⟨h1, h2⟩
    · exact absurd h1 (by simp)
    · refine ⟨h1, ?_, h2⟩
      intro p hp
      rw [← h2]
      exact hall p hp
  · intro h
    subst h
    exact ⟨rfl, rfl⟩

/-- Witness for the amended C6: a singleton table with a positive score has
that entry as best match, dominating all scores, with its score reported. -/
theorem c6_amended_witness :
    ("X", ("t", (1 : ℚ), "s")) ∈ ([("X", ("t", (1 : ℚ), "s"))] : Table) ∧
    (∀ p ∈ ([("X", ("t", (1 : ℚ), "s"))] : Table), p.2.2.1 ≤ (1 : ℚ)) ∧
    (Sample.selectBest [("X", ("t", (1 : ℚ), "s"))]).2 = (1 : ℚ) :=
  (c6_amended_best_selection [("X", ("t", (1 : ℚ), "s"))]).2.1
    ("X", ("t", (1 : ℚ), "s")) (by decide)

/-! ## C5: similarity is not symmetric -/

/-- Counterexample to C5: `SequenceMatcher` treats its two arguments
asymmetrically (the b-side is indexed, the a-side scanned), and the greedy
block choice differs under swapping: similarity("ab", "bacb") = 2/3 while
similarity("bacb", "ab") = 1/3. -/
theorem c5_counterexample_asymmetric :
    similarity "ab" "bacb" ≠ similarity "bacb" "ab" ∧
    similarity "ab" "bacb" = mkRat 2 3 ∧
    similarity "bacb" "ab" = mkRat 1 3 :=
  ⟨by decide, by decide, by decide⟩

/-- C5 (amended).  The similarity score is not symmetric for arbitrary ASCII
strings; it is symmetric whenever the two arguments coincide after
lowercasing. -/
theorem c5_amended_symmetric_on_equal_lower :
    ∀ a b : String, lowerChars a = lowerChars b →
      similarity a b = similarity b a := by
  intro a b h
  unfold similarity
  rw [h]

/-- Witness for the amended C5 on a case-differing pair. -/
theorem c5_amended_witness : similarity "Ab" "aB" = similarity "aB" "Ab" :=
  c5_amended_symmetric_on_equal_lower "Ab" "aB" (by decide)

/-! ## C4: similarity of identical strings

The lemmas below show `ratio(s, s) = 1` for every character sequence `s`,
including under autojunk.  `wrun s i` is the length of the maximal
popularity-free run ending just before index `i`; the dynamic program's
`j2len` chains are bounded by these runs on both the row and column side, the
diagonal chain attains the bound exactly, and ties are broken towards the
diagonal by the ascending column order, so the best block always stays on the
diagonal; the extension loops then widen a diagonal block to the full range. -/

def wrun (b : List Char) : Nat → Nat
  | 0 => 0
  | i + 1 => if isPopular b (getC b i) then 0 else wrun b i + 1

theorem wrun_le (b : List Char) : ∀ i, wrun b i ≤ i
  | 0 => le_refl 0
  | i + 1 => by
    rw [wrun]
    split
    · exact Nat.zero_le _
    · exact Nat.succ_le_succ (wrun_le b i)

theorem wrun_nonpop {b : List Char} {i : Nat}
    (h : isPopular b (getC b i) = false) :
    wrun b (i + 1) = wrun b i + 1 := by
  rw [wrun, if_neg (by simp [h])]

theorem wrun_pop {b : List Char} {i : Nat}
    (h : isPopular b (getC b i) = true) :
    wrun b (i + 1) = 0 := by
  rw [wrun, if_pos (by simp [h])]

theorem mem_b2jGet {b : List Char} {c : Char} {j : Nat} :
    j ∈ b2jGet b c ↔ isPopular b c = false ∧ j < b.length ∧ getC b j = c := by
  unfold b2jGet
  split
  · rename_i h
    simp [h]
  · rename_i h
    rw [Bool.not_eq_true] at h
    simp [positionsOf, List.mem_filter, List.mem_range, h, and_comm]

theorem b2jGet_sorted (b : List Char) (c : Char) :
    (b2jGet b c).Pairwise (· < ·) := by
  unfold b2jGet
  split
  · exact List.Pairwise.nil
  · exact (List.pairwise_lt_range _).filter _

theorem lookup_mem {m : List (Nat × Nat)} {j v : Nat}
    (h : m.lookup j = some v) : (j, v) ∈ m := by
  induction m with
  | nil => simp [List.lookup] at h
  | cons q rest ih =>
    obtain ⟨k, v'⟩ := q
    rw [List.lookup] at h
    cases hq : (j == k) with
    | true =>
      rw [hq] at h
      have hj : j = k := beq_iff_eq.mp hq
      have hv : v' = v := by injection h
      rw [hj, ← hv]
      exact List.mem_cons_self _ _
    | false =>
      rw [hq] at h
      exact List.mem_cons_of_mem _ (ih h)

theorem lookJ2_le {m : List (Nat × Nat)} {f : Nat → Nat}
    (h : ∀ q ∈ m, q.2 ≤ f q.1) (j : Nat) : lookJ2 m j ≤ f j := by
  unfold lookJ2
  cases hl : m.lookup j with
  | none => exact Nat.zero_le _
  | some v => exact h (j, v) (lookup_mem hl)

theorem lookup_append_some {m m' : List (Nat × Nat)} {j v : Nat}
    (h : m.lookup j = some v) : (m ++ m').lookup j = some v := by
  induction m with
  | nil => simp [List.lookup] at h
  | cons q rest ih =>
    obtain ⟨k, v'⟩ := q
    rw [List.cons_append, List.lookup]
    rw [List.lookup] at h
    cases hq : (j == k) with
    | true => simp only [hq] at h ⊢; exact h
    | false => simp only [hq] at h ⊢; exact ih h

theorem lookup_none_of_keys {m : List (Nat × Nat)} {j : Nat}
    (h : ∀ q ∈ m, q.1 ≠ j) : m.lookup j = none := by
  induction m with
  | nil => rfl
  | cons q rest ih =>
    obtain ⟨k, v'⟩ := q
    rw [List.lookup]
    have : (j == k) = false := by
      rw [beq_eq_false_iff_ne]
      exact fun he => (h (k, v') (List.mem_cons_self _ _)) he.symm
    rw [this]
    exact ih (fun q hq => h q (List.mem_cons_of_mem _ hq))

theorem lookup_append_none {m m' : List (Nat × Nat)} {j : Nat}
    (h : m.lookup j = none) : (m ++ m').lookup j = m'.lookup j := by
  induction m with
  | nil => rfl
  | cons q rest ih =>
    obtain ⟨k, v'⟩ := q
    rw [List.cons_append, List.lookup]
    rw [List.lookup] at h
    cases hq : (j == k) with
    | true => simp only [hq] at h; exact absurd h (by simp)
    | false => simp only [hq] at h ⊢; exact ih h

theorem b2jGet_pop {b : List Char} {c : Char} (h : isPopular b c = true) :
    b2jGet b c = [] := by
  unfold b2jGet
  rw [if_pos h]

/-- One no-skip, no-break step of the inner loop. -/
theorem flmInner_cons_eq (i n' : Nat) (j2prev : List (Nat × Nat)) (j : Nat)
    (rest : List Nat) (acc : List (Nat × Nat)) (best : FlmBest) (hj : j < n') :
    flmInner i 0 n' j2prev (j :: rest) acc best
      = flmInner i 0 n' j2prev rest
          (acc ++ [(j, (if j = 0 then 0 else lookJ2 j2prev (j - 1)) + 1)])
          (if best.size < (if j = 0 then 0 else lookJ2 j2prev (j - 1)) + 1 then
            ⟨i + 1 - ((if j = 0 then 0 else lookJ2 j2prev (j - 1)) + 1),
             j + 1 - ((if j = 0 then 0 else lookJ2 j2prev (j - 1)) + 1),
             (if j = 0 then 0 else lookJ2 j2prev (j - 1)) + 1⟩
           else best) := by
  conv_lhs => rw [flmInner]
  rw [if_neg (Nat.not_lt_zero _), if_neg (not_le.mpr hj)]

/-- Chain value bounds: the new `j2len` entry at column `j` is bounded by the
popularity-free run ending at `j` and by the one ending at the current row. -/
theorem chain_k_bounds (s : List Char) (i : Nat) (j2prev : List (Nat × Nat))
    (hpopi : isPopular s (getC s i) = false)
    (hprevA : ∀ q ∈ j2prev, q.2 ≤ wrun s i)
    (hprevB : ∀ q ∈ j2prev, q.2 ≤ wrun s (q.1 + 1))
    (j : Nat) (hjc : getC s j = getC s i) :
    (if j = 0 then 0 else lookJ2 j2prev (j - 1)) + 1 ≤ wrun s (j + 1)
    ∧ (if j = 0 then 0 else lookJ2 j2prev (j - 1)) + 1 ≤ wrun s (i + 1) := by
  have hpopj : isPopular s (getC s j) = false := by rw [hjc]; exact hpopi
  rw [wrun_nonpop hpopj, wrun_nonpop hpopi]
  cases j with
  | zero =>
    rw [if_pos rfl]
    exact ⟨Nat.succ_le_succ (Nat.zero_le _), Nat.succ_le_succ (Nat.zero_le _)⟩
  | succ m =>
    rw [if_neg (Nat.succ_ne_zero m)]
    simp only [Nat.add_sub_cancel]
    constructor
    · exact Nat.succ_le_succ (lookJ2_le (f := fun x => wrun s (x + 1)) hprevB m)
    · exact Nat.succ_le_succ (lookJ2_le (f := fun _ => wrun s i) hprevA m)

/-- Processing the columns left of the diagonal never updates the best block. -/
theorem flmInner_pre (s : List Char) (i : Nat) (j2prev : List (Nat × Nat))
    (hpopi : isPopular s (getC s i) = false)
    (hprevA : ∀ q ∈ j2prev, q.2 ≤ wrun s i)
    (hprevB : ∀ q ∈ j2prev, q.2 ≤ wrun s (q.1 + 1)) :
    ∀ (js rest0 : List Nat) (acc : List (Nat × Nat)) (best : FlmBest),
      (∀ j ∈ js, j < i ∧ j < s.length ∧ getC s j = getC s i) →
      (∀ m, m ≤ i → wrun s m ≤ best.size) →
      (∀ q ∈ acc, q.2 ≤ wrun s (q.1 + 1) ∧ q.2 ≤ wrun s (i + 1) ∧ q.1 < i) →
      ∃ acc', flmInner i 0 s.length j2prev (js ++ rest0) acc best
          = flmInner i 0 s.length j2prev rest0 acc' best
        ∧ (∀ q ∈ acc', q.2 ≤ wrun s (q.1 + 1) ∧ q.2 ≤ wrun s (i + 1) ∧ q.1 < i)
  | [], rest0, acc, best, _, _, hacc => ⟨acc, rfl, hacc⟩
  | j :: js', rest0, acc, best, hjs, hbest, hacc => by
    have hj := hjs j (List.mem_cons_self j js')
    have hk := chain_k_bounds s i j2prev hpopi hprevA hprevB j hj.2.2
    have hnotrig : ¬ best.size < (if j = 0 then 0 else lookJ2 j2prev (j - 1)) + 1 := by
      have h1 : wrun s (j + 1) ≤ best.size := hbest (j + 1) hj.1
      exact not_lt.mpr (le_trans hk.1 h1)
    rw [List.cons_append, flmInner_cons_eq i s.length j2prev j (js' ++ rest0) acc best hj.2.1,
      if_neg hnotrig]
    apply flmInner_pre s i j2prev hpopi hprevA hprevB js' rest0 _ best
      (fun x hx => hjs x (List.mem_cons_of_mem j hx)) hbest
    intro q hq
    rcases List.mem_append.mp hq with hq1 | hq2
    · exact hacc q hq1
    · have : q = (j, (if j = 0 then 0 else lookJ2 j2prev (j - 1)) + 1) := by
        simpa using hq2
      rw [this]
      exact ⟨hk.1, hk.2, hj.1⟩

/-- Processing the diagonal column records the exact run length. -/
theorem flmInner_diag (s : List Char) (i : Nat) (j2prev : List (Nat × Nat))
    (hpopi : isPopular s (getC s i) = false) (hiln : i < s.length)
    (hprevD : i = 0 ∨ lookJ2 j2prev (i - 1) = wrun s i) :
    ∀ (rest0 : List Nat) (acc : List (Nat × Nat)) (best : FlmBest),
      flmInner i 0 s.length j2prev (i :: rest0) acc best
        = flmInner i 0 s.length j2prev rest0 (acc ++ [(i, wrun s (i + 1))])
            (if best.size < wrun s (i + 1) then
              ⟨i + 1 - wrun s (i + 1), i + 1 - wrun s (i + 1), wrun s (i + 1)⟩
             else best) := by
  intro rest0 acc best
  have hk : (if i = 0 then 0 else lookJ2 j2prev (i - 1)) + 1 = wrun s (i + 1) := by
    rw [wrun_nonpop hpopi]
    cases i with
    | zero =>
      rw [if_pos rfl]
      rfl
    | succ m =>
      rw [if_neg (Nat.succ_ne_zero m)]
      rcases hprevD with h0 | hD
      · exact absurd h0 (Nat.succ_ne_zero m)
      · rw [hD]
  rw [flmInner_cons_eq i s.length j2prev i rest0 acc best hiln, hk]

/-- Processing the columns right of the diagonal never updates the best
block either, once its size dominates the current run. -/
theorem flmInner_post (s : List Char) (i : Nat) (j2prev : List (Nat × Nat))
    (hpopi : isPopular s (getC s i) = false)
    (hprevA : ∀ q ∈ j2prev, q.2 ≤ wrun s i)
    (hprevB : ∀ q ∈ j2prev, q.2 ≤ wrun s (q.1 + 1)) :
    ∀ (js : List Nat) (acc : List (Nat × Nat)) (best : FlmBest),
      (∀ j ∈ js, j < s.length ∧ getC s j = getC s i) →
      wrun s (i + 1) ≤ best.size →
      (∀ q ∈ acc, q.2 ≤ wrun s (q.1 + 1) ∧ q.2 ≤ wrun s (i + 1)) →
      ∃ acc', flmInner i 0 s.length j2prev js acc best = (acc', best)
        ∧ (∀ q ∈ acc', q.2 ≤ wrun s (q.1 + 1) ∧ q.2 ≤ wrun s (i + 1))
        ∧ (∀ j0 v, acc.lookup j0 = some v → acc'.lookup j0 = some v)
  | [], acc, best, _, _, hacc => ⟨acc, rfl, hacc, fun _ _ h => h⟩
  | j :: js', acc, best, hjs, hbest, hacc => by
    have hj := hjs j (List.mem_cons_self j js')
    have hk := chain_k_bounds s i j2prev hpopi hprevA hprevB j hj.2
    have hnotrig : ¬ best.size < (if j = 0 then 0 else lookJ2 j2prev (j - 1)) + 1 :=
      not_lt.mpr (le_trans hk.2 hbest)
    rw [flmInner_cons_eq i s.length j2prev j js' acc best hj.1, if_neg hnotrig]
    obtain ⟨acc', heq, hacc', hlook⟩ :=
      flmInner_post s i j2prev hpopi hprevA hprevB js'
        (acc ++ [(j, (if j = 0 then 0 else lookJ2 j2prev (j - 1)) + 1)]) best
        (fun x hx => hjs x (List.mem_cons_of_mem j hx)) hbest
        (by
          intro q hq
          rcases List.mem_append.mp hq with hq1 | hq2
          · exact hacc q hq1
          · have : q = (j, (if j = 0 then 0 else lookJ2 j2prev (j - 1)) + 1) := by
              simpa using hq2
            rw [this]
            exact ⟨hk.1, hk.2⟩)
    exact ⟨acc', heq, hacc', fun j0 v h => hlook j0 v (lookup_append_some h)⟩

/-- The ascending index list `range(alo, ahi)` in head-recursive form. -/
def iseq : Nat → Nat → List Nat
  | _, 0 => []
  | i, cnt + 1 => i :: iseq (i + 1) cnt

theorem iseq_eq_range_map : ∀ (cnt i : Nat),
    iseq i cnt = (List.range cnt).map (fun t => i + t)
  | 0, _ => rfl
  | cnt + 1, i => by
    rw [iseq, List.range_succ_eq_map, List.map_cons, List.map_map,
      iseq_eq_range_map cnt (i + 1)]
    congr 1
    apply List.map_congr_left
    intro t _
    simp [Function.comp]
    omega

/-- Invariant induction along the outer loop on equal sequences: the best
block stays on the diagonal and within bounds. -/
theorem flmOuter_self (s : List Char) :
    ∀ (cnt i : Nat) (j2prev : List (Nat × Nat)) (best : FlmBest),
      i + cnt = s.length →
      (∀ q ∈ j2prev, q.2 ≤ wrun s i) →
      (∀ q ∈ j2prev, q.2 ≤ wrun s (q.1 + 1)) →
      (i = 0 ∨ lookJ2 j2prev (i - 1) = wrun s i) →
      best.i = best.j →
      (∀ m, m ≤ i → wrun s m ≤ best.size) →
      best.i + best.size ≤ s.length →
      (flmOuter s s 0 s.length (iseq i cnt) j2prev best).i
        = (flmOuter s s 0 s.length (iseq i cnt) j2prev best).j
      ∧ (flmOuter s s 0 s.length (iseq i cnt) j2prev best).i
          + (flmOuter s s 0 s.length (iseq i cnt) j2prev best).size ≤ s.length
  | 0, i, j2prev, best, _, _, _, _, hbij, _, hbb => by
    rw [iseq]
    exact ⟨hbij, hbb⟩
  | cnt + 1, i, j2prev, best, hcnt, hA, hB, hD, hbij, hbsz, hbb => by
    have hiln : i < s.length := by omega
    rw [iseq, flmOuter]
    by_cases hpop : isPopular s (getC s i) = true
    · rw [b2jGet_pop hpop]
      have hstep : flmInner i 0 s.length j2prev [] [] best = ([], best) := rfl
      rw [hstep]
      apply flmOuter_self s cnt (i + 1) [] best (by omega)
        (by intro q hq; exact absurd hq (List.not_mem_nil q))
        (by intro q hq; exact absurd hq (List.not_mem_nil q))
        (Or.inr (by rw [wrun_pop hpop]; rfl))
        hbij
        ?_ hbb
      intro m hm
      rcases Nat.eq_or_lt_of_le hm with rfl | hlt
      · rw [wrun_pop hpop]
        exact Nat.zero_le _
      · exact hbsz m (by omega)
    · rw [Bool.not_eq_true] at hpop
      have hi : i ∈ b2jGet s (getC s i) := mem_b2jGet.mpr ⟨hpop, hiln, rfl⟩
      have hmem : ∀ j ∈ b2jGet s (getC s i), j < s.length ∧ getC s j = getC s i := by
        intro j hj
        exact (mem_b2jGet.mp hj).2
      have hsort := b2jGet_sorted s (getC s i)
      obtain ⟨l₁, l₂, hsplit⟩ := List.append_of_mem hi
      rw [hsplit] at hsort
      obtain ⟨hp1, hp2, hp3⟩ := List.pairwise_append.mp hsort
      have hpost : ∀ b ∈ l₂, i < b := (List.pairwise_cons.mp hp2).1
      have hpre : ∀ a ∈ l₁, a < i := fun a ha =>
        hp3 a ha i (List.mem_cons_self i l₂)
      rw [hsplit]
      obtain ⟨acc₁, heq1, hacc1⟩ :=
        flmInner_pre s i j2prev hpop hA hB l₁ (i :: l₂) [] best
          (fun j hj =>
            ⟨hpre j hj, (hmem j (hsplit ▸ List.mem_append_left _ hj)).1,
             (hmem j (hsplit ▸ List.mem_append_left _ hj)).2⟩)
          hbsz
          (by intro q hq; exact absurd hq (List.not_mem_nil q))
      rw [heq1, flmInner_diag s i j2prev hpop hiln hD (l₂) acc₁ best]
      set w := wrun s (i + 1) with hw
      set best2 : FlmBest :=
        (if best.size < w then ⟨i + 1 - w, i + 1 - w, w⟩ else best) with hbest2
      have hb2ij : best2.i = best2.j := by
        rw [hbest2]
        split
        · rfl
        · exact hbij
      have hb2w : w ≤ best2.size := by
        rw [hbest2]
        split
        · rfl
        · rename_i hns
          exact not_lt.mp hns
      have hb2mono : best.size ≤ best2.size := by
        rw [hbest2]
        split
        · rename_i hs2
          exact le_of_lt hs2
        · exact le_refl _
      have hb2b : best2.i + best2.size ≤ s.length := by
        rw [hbest2]
        split
        · have : w ≤ i + 1 := hw ▸ wrun_le s (i + 1)
          simp only []
          omega
        · exact hbb
      have hacc2 : ∀ q ∈ acc₁ ++ [(i, w)],
          q.2 ≤ wrun s (q.1 + 1) ∧ q.2 ≤ wrun s (i + 1) := by
        intro q hq
        rcases List.mem_append.mp hq with hq1 | hq2
        · exact ⟨(hacc1 q hq1).1, (hacc1 q hq1).2.1⟩
        · have : q = (i, w) := by simpa using hq2
          rw [this, hw]
          exact ⟨le_refl _, le_refl _⟩
      have hlook2 : (acc₁ ++ [(i, w)]).lookup i = some w := by
        rw [lookup_append_none (lookup_none_of_keys
          (fun q hq => Nat.ne_of_lt (hacc1 q hq).2.2))]
        simp [List.lookup]
      obtain ⟨acc₃, heq3, hacc3, hlook3⟩ :=
        flmInner_post s i j2prev hpop hA hB l₂ (acc₁ ++ [(i, w)]) best2
          (fun j hj => hmem j (hsplit ▸ List.mem_append_right _ (List.mem_cons_of_mem i hj)))
          hb2w hacc2
      rw [heq3]
      apply flmOuter_self s cnt (i + 1) acc₃ best2 (by omega)
        (fun q hq => (hacc3 q hq).2)
        (fun q hq => (hacc3 q hq).1)
        (Or.inr (by
          have := hlook3 i w hlook2
          simp only [Nat.add_sub_cancel]
          rw [lookJ2, this]
          rfl))
        hb2ij
        ?_ hb2b
      intro m hm
      rcases Nat.eq_or_lt_of_le hm with rfl | hlt
      · exact hb2w
      · exact le_trans (hbsz m (by omega)) hb2mono

theorem extLeftNJ_diag_self (s : List Char) :
    ∀ (d size : Nat), extLeftNJ s s 0 0 d d size = ⟨0, 0, size + d⟩
  | 0, size => by rw [extLeftNJ, Nat.add_zero]
  | d + 1, size => by
    rw [extLeftNJ, if_pos ⟨Nat.succ_pos d, Nat.succ_pos d, rfl, by rw [Nat.add_sub_cancel]⟩,
      Nat.add_sub_cancel, extLeftNJ_diag_self s d (size + 1)]
    congr 1
    omega

theorem extRightNJ_diag_self (s : List Char) :
    ∀ (fuel size : Nat), size ≤ s.length → s.length ≤ size + fuel →
      extRightNJ s s s.length s.length fuel 0 0 size = ⟨0, 0, s.length⟩
  | 0, size, h1, h2 => by
    rw [extRightNJ]
    have : size = s.length := by omega
    rw [this]
  | fuel + 1, size, h1, h2 => by
    by_cases hlt : size < s.length
    · rw [extRightNJ, if_pos ⟨by omega, by omega, rfl, rfl⟩]
      exact extRightNJ_diag_self s fuel (size + 1) (by omega) (by omega)
    · have : size = s.length := by omega
      rw [extRightNJ, if_neg (by rw [this]; intro hcon; omega), this]

theorem extLeftJ_id (a b : List Char) (alo blo : Nat) :
    ∀ (i j size : Nat), extLeftJ a b alo blo i j size = ⟨i, j, size⟩
  | 0, _, _ => by rw [extLeftJ]
  | i + 1, j, size => by
    rw [extLeftJ, if_neg]
    intro ⟨_, _, h3, _⟩
    simp [bjunk] at h3

theorem extRightJ_id (a b : List Char) (ahi bhi : Nat) :
    ∀ (fuel i j size : Nat), extRightJ a b ahi bhi fuel i j size = ⟨i, j, size⟩
  | 0, _, _, _ => by rw [extRightJ]
  | fuel + 1, i, j, size => by
    rw [extRightJ, if_neg]
    intro ⟨_, _, h3, _⟩
    simp [bjunk] at h3

/-- On equal sequences, `find_longest_match` over the whole range returns the
full diagonal block. -/
theorem flm_self (s : List Char) :
    flm s s 0 s.length 0 s.length = ⟨0, 0, s.length⟩ := by
  have hlist : (List.range (s.length - 0)).map (fun t => 0 + t) = iseq 0 s.length := by
    rw [iseq_eq_range_map]
    rfl
  have houter := flmOuter_self s s.length 0 [] ⟨0, 0, 0⟩ (by omega)
    (by intro q hq; exact absurd hq (List.not_mem_nil q))
    (by intro q hq; exact absurd hq (List.not_mem_nil q))
    (Or.inl rfl) rfl
    (by
      intro m hm
      rw [Nat.le_zero.mp hm]
      exact Nat.zero_le _)
    (by simp)
  unfold flm
  rw [hlist]
  obtain ⟨hij, hbd⟩ := houter
  set b0 := flmOuter s s 0 s.length (iseq 0 s.length) [] (⟨0, 0, 0⟩ : FlmBest) with hb0
  have h1 : extLeftNJs s s 0 0 b0 = ⟨0, 0, b0.size + b0.i⟩ := by
    unfold extLeftNJs
    rw [← hij]
    exact extLeftNJ_diag_self s b0.i b0.size
  rw [h1]
  have h2 : extRightNJs s s s.length s.length ⟨0, 0, b0.size + b0.i⟩
      = ⟨0, 0, s.length⟩ := by
    unfold extRightNJs
    exact extRightNJ_diag_self s s.length (b0.size + b0.i) (by omega) (by omega)
  rw [h2]
  have h3 : extLeftJs s s 0 0 (⟨0, 0, s.length⟩ : FlmBest) = ⟨0, 0, s.length⟩ := by
    unfold extLeftJs
    exact extLeftJ_id s s 0 0 0 0 s.length
  rw [h3]
  unfold extRightJs
  exact extRightJ_id s s s.length s.length s.length 0 0 s.length

theorem matchesTotal_self (s : List Char) :
    matchesTotal s s 0 s.length 0 s.length = s.length := by
  unfold matchesTotal
  have hfuel : s.length - 0 + (s.length - 0) + 1 = s.length + s.length + 1 := by omega
  rw [hfuel]
  simp only [matchesTotalF]
  rw [flm_self]
  dsimp only
  by_cases hn : s.length = 0
  · rw [if_pos hn, hn]
  · rw [if_neg hn, if_neg (by intro ⟨h1, _⟩; omega),
      if_neg (by intro ⟨h1, _⟩; omega)]
    omega

/-- `ratio` of a sequence against itself is exactly 1. -/
theorem ratioOf_self (s : List Char) : ratioOf s s = 1 := by
  unfold ratioOf
  by_cases h : s.length + s.length = 0
  · rw [if_pos h]
  · rw [if_neg h, matchesTotal_self]
    rw [Rat.mkRat_eq_div]
    have h2 : (2 * s.length : ℤ) = (s.length + s.length : ℕ) := by push_cast; ring
    rw [h2]
    exact div_self (by exact_mod_cast h)

/-- C4.  `similarity(a, a)` is exactly 1.0 for every (non-empty) string, and
more generally `similarity` returns 1.0 whenever the two arguments are
identical after lowercasing. -/
theorem c4_similarity_identical_lower :
    (∀ a : String, a ≠ "" → similarity a a = 1)
    ∧ (∀ a b : String, lowerChars a = lowerChars b → similarity a b = 1) := by
  refine ⟨fun a _ => ratioOf_self (lowerChars a), fun a b hab => ?_⟩
  unfold similarity
  rw [hab]
  exact ratioOf_self (lowerChars b)

/-- Witness for C4 on the repository's own term and on a case-differing pair. -/
theorem c4_similarity_witness :
    similarity "vAtavRuddhiH" "vAtavRuddhiH" = 1 ∧
    similarity "MixedCase" "mixedcase" = 1 :=
  ⟨c4_similarity_identical_lower.1 "vAtavRuddhiH" (by decide),
   c4_similarity_identical_lower.2 "MixedCase" "mixedcase" (by decide)⟩
